import Mathlib

/-!
Verification of the importance/entropy-scored graph compression engine of the
minimal-signaling repository: the semantic-graph data model
(`semantic_graph.py`), the budget compressor (`graph_compressor.py`), the
entropy scorer (`graph_encoder.py`), the importance booster and the adaptive
iterative controller (`iterative_graph_pipeline.py`), as a shallow embedding.
Python floats are modelled as rationals (reals for the entropy scorer, whose
definition uses a real logarithm); dictionaries keyed by node id are modelled
as lists (the Python dict guarantees distinct ids; the claims below do not
depend on iteration order).
-/

namespace MS

/-- The closed set of semantic node kinds (`NodeType` in `semantic_graph.py`). -/
inductive NodeType where
  | intent
  | entity
  | attribute
  | detail
  | constraint
  | outcome
  deriving DecidableEq, Repr

/-- A node of the semantic graph (`SemanticNode`): id, content, kind,
importance (value score) and entropy (cost score).  The open metadata map is
omitted: it is never semantically required. -/
structure SemanticNode where
  id : String
  content : String
  node_type : NodeType
  importance : ℚ
  entropy : ℚ
  deriving DecidableEq, Repr

/-- An edge of the semantic graph (`SemanticEdge`): ordered pair of node ids,
relation label and weight. -/
structure SemanticEdge where
  source : String
  target : String
  relation : String
  weight : ℚ
  deriving DecidableEq, Repr

/-- The semantic graph (`SemanticGraph`): the id-keyed node dict is modelled
as the list of its values in insertion order, plus the edge list, optional
root id and provenance fields. -/
structure SemanticGraph where
  nodes : List SemanticNode
  edges : List SemanticEdge
  root_id : Option String
  original_text : String
  original_tokens : Nat
  deriving DecidableEq, Repr

namespace SemanticGraph

/-- Total entropy of a graph: `SemanticGraph.total_entropy`. -/
def total_entropy (g : SemanticGraph) : ℚ :=
  (g.nodes.map (fun n => n.entropy)).sum

/-- Total importance of a graph: `SemanticGraph.total_importance`. -/
def total_importance (g : SemanticGraph) : ℚ :=
  (g.nodes.map (fun n => n.importance)).sum

/-- Number of nodes: `SemanticGraph.node_count`. -/
def node_count (g : SemanticGraph) : Nat := g.nodes.length

/-- Number of edges: `SemanticGraph.edge_count`. -/
def edge_count (g : SemanticGraph) : Nat := g.edges.length

end SemanticGraph

/-- Sum of the entropies of a list of nodes. -/
def entropySum (l : List SemanticNode) : ℚ :=
  (l.map (fun n => n.entropy)).sum

/-- Stable insertion into an importance-descending list: the new node goes
after every node of strictly greater importance and before the rest, which is
the placement Python's stable `sorted(..., key=importance, reverse=True)`
gives an element relative to the already-sorted later elements. -/
def insertDesc (n : SemanticNode) : List SemanticNode → List SemanticNode
  | [] => [n]
  | m :: ms => if n.importance < m.importance then m :: insertDesc n ms else n :: m :: ms

/-- Stable sort by importance, descending (`sorted(prunable, key=lambda n:
n.importance, reverse=True)`). -/
def sortByImportanceDesc : List SemanticNode → List SemanticNode
  | [] => []
  | n :: ns => insertDesc n (sortByImportanceDesc ns)

/-- The greedy selection loop of `GraphCompressor.compress`: walk the sorted
prunable nodes; add a node when it fits the entropy budget, or — the escape
valve — when its importance exceeds 0.9 and fewer than 10 nodes are selected
so far.  Returns the selected nodes and the accumulated entropy. -/
def greedySelect (target_entropy : ℚ) :
    List SemanticNode → List SemanticNode → ℚ → List SemanticNode × ℚ
  | [], selected, current => (selected, current)
  | n :: rest, selected, current =>
    if current + n.entropy ≤ target_entropy then
      greedySelect target_entropy rest (selected ++ [n]) (current + n.entropy)
    else if 9/10 < n.importance ∧ selected.length < 10 then
      greedySelect target_entropy rest (selected ++ [n]) (current + n.entropy)
    else
      greedySelect target_entropy rest selected current

/-- The node-selection phase of `GraphCompressor.compress`: split off the
must-keep kinds, sort the rest by importance descending, then greedily select
under the entropy budget `total_entropy × target_ratio`. -/
def compressSelect (graph : SemanticGraph) (target_ratio : ℚ)
    (preserve_types : List NodeType) : List SemanticNode :=
  let target_entropy := graph.total_entropy * target_ratio
  let must_keep := graph.nodes.filter (fun n => decide (n.node_type ∈ preserve_types))
  let prunable := graph.nodes.filter (fun n => decide (n.node_type ∉ preserve_types))
  let prunable_sorted := sortByImportanceDesc prunable
  (greedySelect target_entropy prunable_sorted must_keep (entropySum must_keep)).1

/-- `GraphCompressor._build_compressed_graph`: a new graph holding exactly the
selected nodes, the original's edges whose two endpoints are both selected,
and value-copies of the root id and provenance fields. -/
def build_compressed_graph (original : SemanticGraph)
    (selected : List SemanticNode) : SemanticGraph :=
  let selected_ids := selected.map (fun n => n.id)
  { nodes := selected
    edges := original.edges.filter
      (fun e => decide (e.source ∈ selected_ids) && decide (e.target ∈ selected_ids))
    root_id := original.root_id
    original_text := original.original_text
    original_tokens := original.original_tokens }

/-- `GraphCompressor.compress`: prune low-importance nodes down to the target
entropy ratio, always keeping the preserved kinds. -/
def compress (graph : SemanticGraph) (target_ratio : ℚ)
    (preserve_types : List NodeType) : SemanticGraph :=
  build_compressed_graph graph (compressSelect graph target_ratio preserve_types)

/-- The default `preserve_types` of `GraphCompressor.compress`: `{INTENT}`. -/
def defaultPreserve : List NodeType := [NodeType.intent]

/-- Nodes already selected stay selected: the greedy walk only ever appends. -/
theorem mem_greedySelect_left (t : ℚ) (l : List SemanticNode) :
    ∀ (sel : List SemanticNode) (c : ℚ) (x : SemanticNode),
      x ∈ sel → x ∈ (greedySelect t l sel c).1 := by
  induction l with
  | nil => intro sel c x hx; simpa [greedySelect] using hx
  | cons n rest ih =>
    intro sel c x hx
    simp only [greedySelect]
    split
    · exact ih _ _ x (List.mem_append_left _ hx)
    · split
      · exact ih _ _ x (List.mem_append_left _ hx)
      · exact ih _ _ x hx

/-- Every node of the greedy result came from the initial selection or from
the walked list. -/
theorem mem_greedySelect_elim (t : ℚ) (l : List SemanticNode) :
    ∀ (sel : List SemanticNode) (c : ℚ) (x : SemanticNode),
      x ∈ (greedySelect t l sel c).1 → x ∈ sel ∨ x ∈ l := by
  induction l with
  | nil => intro sel c x hx; exact Or.inl (by simpa [greedySelect] using hx)
  | cons n rest ih =>
    intro sel c x hx
    simp only [greedySelect] at hx
    split at hx
    · rcases ih _ _ x hx with h | h
      · rcases List.mem_append.mp h with h' | h'
        · exact Or.inl h'
        · exact Or.inr (by simpa using Or.inl (List.mem_singleton.mp h'))
      · exact Or.inr (List.mem_cons_of_mem _ h)
    · split at hx
      · rcases ih _ _ x hx with h | h
        · rcases List.mem_append.mp h with h' | h'
          · exact Or.inl h'
          · exact Or.inr (by simpa using Or.inl (List.mem_singleton.mp h'))
        · exact Or.inr (List.mem_cons_of_mem _ h)
      · rcases ih _ _ x hx with h | h
        · exact Or.inl h
        · exact Or.inr (List.mem_cons_of_mem _ h)

/-- Membership through stable insertion. -/
theorem mem_insertDesc (n x : SemanticNode) (l : List SemanticNode) :
    x ∈ insertDesc n l ↔ x = n ∨ x ∈ l := by
  induction l with
  | nil => simp [insertDesc]
  | cons m ms ih =>
    simp only [insertDesc]
    split
    · simp only [List.mem_cons, ih]
      tauto
    · simp [List.mem_cons]

/-- Sorting by importance preserves membership. -/
theorem mem_sortByImportanceDesc (x : SemanticNode) (l : List SemanticNode) :
    x ∈ sortByImportanceDesc l ↔ x ∈ l := by
  induction l with
  | nil => simp [sortByImportanceDesc]
  | cons n ns ih => simp [sortByImportanceDesc, mem_insertDesc, ih]

/-- Stable insertion adds exactly one element. -/
theorem length_insertDesc (n : SemanticNode) (l : List SemanticNode) :
    (insertDesc n l).length = l.length + 1 := by
  induction l with
  | nil => rfl
  | cons m ms ih =>
    simp only [insertDesc]
    split
    · simp [ih]
    · simp

/-- Sorting by importance preserves length. -/
theorem length_sortByImportanceDesc (l : List SemanticNode) :
    (sortByImportanceDesc l).length = l.length := by
  induction l with
  | nil => rfl
  | cons n ns ih => simp [sortByImportanceDesc, length_insertDesc, ih]

/-- C1.  For every graph, every target ratio and every preserve-kinds set,
every unit of the graph whose kind is in the preserve set (by default the set
containing only `intent`) is present in the compressed graph, regardless of
how small the ratio is: must-keep units seed the selection and the greedy
walk never removes them. -/
theorem compress_preserves_kinds (graph : SemanticGraph) (target_ratio : ℚ)
    (preserve_types : List NodeType) (n : SemanticNode)
    (hmem : n ∈ graph.nodes) (hkind : n.node_type ∈ preserve_types) :
    n ∈ (compress graph target_ratio preserve_types).nodes := by
  have hmk : n ∈ graph.nodes.filter (fun m => decide (m.node_type ∈ preserve_types)) :=
    List.mem_filter.mpr ⟨hmem, by simpa using hkind⟩
  show n ∈ compressSelect graph target_ratio preserve_types
  exact mem_greedySelect_left _ _ _ _ n hmk

/-- Concrete instance for the preserve-kinds guarantee: a two-node graph whose
`intent` unit survives compression at ratio 0. -/
def nIntentW : SemanticNode :=
  { id := "i0", content := "do the thing", node_type := .intent,
    importance := 1, entropy := 7 }

/-- A `detail` unit used in concrete instances. -/
def nDetailW : SemanticNode :=
  { id := "d0", content := "background", node_type := .detail,
    importance := 1/2, entropy := 5 }

/-- A two-node graph with one `intent` and one `detail` unit, linked. -/
def gW : SemanticGraph :=
  { nodes := [nIntentW, nDetailW],
    edges := [{ source := "i0", target := "d0", relation := "has_detail", weight := 1 }],
    root_id := some "i0", original_text := "do the thing background",
    original_tokens := 4 }

/-- Witness for `compress_preserves_kinds`: the intent unit of `gW` is kept at
target ratio 0. -/
theorem compress_preserves_kinds_witness :
    nIntentW ∈ gW.nodes ∧ NodeType.intent ∈ defaultPreserve ∧
      nIntentW ∈ (compress gW 0 defaultPreserve).nodes :=
  ⟨by with_unfolding_all decide, by with_unfolding_all decide,
    compress_preserves_kinds gW 0 defaultPreserve nIntentW
      (by with_unfolding_all decide) (by with_unfolding_all decide)⟩

/-- C4.  Referential integrity under pruning: every relation of the compressed
graph has both endpoint ids among the compressed graph's units, and a relation
of the original graph with a pruned endpoint is dropped from the output. -/
theorem compress_no_dangling_relations (graph : SemanticGraph) (target_ratio : ℚ)
    (preserve_types : List NodeType) (e : SemanticEdge)
    (he : e ∈ (compress graph target_ratio preserve_types).edges) :
    e.source ∈ (compress graph target_ratio preserve_types).nodes.map (fun n => n.id) ∧
      e.target ∈ (compress graph target_ratio preserve_types).nodes.map (fun n => n.id) := by
  have he' : e ∈ graph.edges.filter
      (fun e => decide (e.source ∈ (compressSelect graph target_ratio preserve_types).map (fun n => n.id)) &&
        decide (e.target ∈ (compressSelect graph target_ratio preserve_types).map (fun n => n.id))) := he
  have h2 := (List.mem_filter.mp he').2
  rw [Bool.and_eq_true, decide_eq_true_eq, decide_eq_true_eq] at h2
  exact h2

/-- The edge of `gW`, named for the concrete instances below. -/
def eW : SemanticEdge :=
  { source := "i0", target := "d0", relation := "has_detail", weight := 1 }

/-- Witness for `compress_no_dangling_relations`: the edge of `gW` survives
compression at ratio 1 and both its endpoints are present. -/
theorem compress_no_dangling_relations_witness :
    eW ∈ (compress gW 1 defaultPreserve).edges ∧
      "i0" ∈ (compress gW 1 defaultPreserve).nodes.map (fun n => n.id) :=
  ⟨by with_unfolding_all decide,
    (compress_no_dangling_relations gW 1 defaultPreserve eW
      (by with_unfolding_all decide)).1⟩

/-- A graph whose root unit is a prunable `detail` node: used to show the root
id is copied even when the root unit is pruned. -/
def gRoot : SemanticGraph :=
  { nodes := [{ id := "r0", content := "ctx", node_type := .detail,
                importance := 1/2, entropy := 5 }],
    edges := [], root_id := some "r0", original_text := "ctx",
    original_tokens := 1 }

/-- C10.  The compressed graph's root id is copied verbatim from the source
for every input, and it can name a unit absent from the compressed graph: in
`gRoot` the root unit is a low-importance `detail` node pruned at ratio 0,
yet the output still carries root id `r0`. -/
theorem compress_root_id_copied_verbatim :
    (∀ (graph : SemanticGraph) (target_ratio : ℚ) (preserve_types : List NodeType),
        (compress graph target_ratio preserve_types).root_id = graph.root_id) ∧
      (compress gRoot 0 defaultPreserve).root_id = some "r0" ∧
      "r0" ∉ (compress gRoot 0 defaultPreserve).nodes.map (fun n => n.id) :=
  ⟨fun _ _ _ => rfl, by with_unfolding_all decide, by with_unfolding_all decide⟩

/-- Three prunable `detail` nodes of descending importance (all at most 0.9,
so the escape valve never fires) with entropies 10, 4, 5: the instance on
which kept-unit-count monotonicity in the target ratio fails. -/
def gC2 : SemanticGraph :=
  { nodes :=
      [{ id := "a", content := "", node_type := .detail, importance := 9/10, entropy := 10 },
       { id := "b", content := "", node_type := .detail, importance := 8/10, entropy := 4 },
       { id := "c", content := "", node_type := .detail, importance := 7/10, entropy := 5 }],
    edges := [], root_id := none, original_text := "", original_tokens := 0 }

/-- C2, counterexample.  Unit-count monotonicity in the target ratio fails on
`gC2` with no escape-valve involvement (every importance is at most 0.9): at
ratio 9/19 (entropy budget 9) the budget skips the entropy-10 node and takes
the two smaller ones (2 units kept), while at the larger ratio 10/19 (budget
10) the entropy-10 node is taken first and blocks both others (1 unit). -/
theorem compress_count_not_monotone_cex :
    (9 : ℚ)/19 < 10/19 ∧
      (∀ n ∈ gC2.nodes, n.importance ≤ 9/10) ∧
      (compress gC2 (9/19) defaultPreserve).node_count = 2 ∧
      (compress gC2 (10/19) defaultPreserve).node_count = 1 := by
  refine ⟨?_, ?_, ?_, ?_⟩ <;> with_unfolding_all decide

/-- Accumulated entropy never decreases along the greedy walk when the walked
nodes have nonnegative entropy. -/
theorem greedySelect_cur_ge (t : ℚ) (l : List SemanticNode) :
    ∀ (sel : List SemanticNode) (c : ℚ), (∀ n ∈ l, 0 ≤ n.entropy) →
      c ≤ (greedySelect t l sel c).2 := by
  induction l with
  | nil => intro sel c _; simp [greedySelect]
  | cons n rest ih =>
    intro sel c hent
    have hn : 0 ≤ n.entropy := hent n (List.mem_cons_self n rest)
    have hrest : ∀ m ∈ rest, 0 ≤ m.entropy := fun m hm => hent m (List.mem_cons_of_mem n hm)
    simp only [greedySelect]
    split
    · exact le_trans (le_add_of_nonneg_right hn) (ih _ _ hrest)
    · split
      · exact le_trans (le_add_of_nonneg_right hn) (ih _ _ hrest)
      · exact ih _ _ hrest

/-- Without the escape valve (every walked importance at most 0.9) the greedy
accumulated entropy stays below the larger of its start value and the budget. -/
theorem greedySelect_cur_le_max (t : ℚ) (l : List SemanticNode) :
    ∀ (sel : List SemanticNode) (c : ℚ), (∀ n ∈ l, n.importance ≤ 9/10) →
      (greedySelect t l sel c).2 ≤ max c t := by
  induction l with
  | nil => intro sel c _; simp [greedySelect]
  | cons n rest ih =>
    intro sel c himp
    have hn : n.importance ≤ 9/10 := himp n (List.mem_cons_self n rest)
    have hrest : ∀ m ∈ rest, m.importance ≤ 9/10 :=
      fun m hm => himp m (List.mem_cons_of_mem n hm)
    simp only [greedySelect]
    split
    · next htake =>
      have hih : (greedySelect t rest (sel ++ [n]) (c + n.entropy)).2 ≤ max (c + n.entropy) t :=
        ih _ _ hrest
      rw [max_eq_right htake] at hih
      exact hih.trans (le_max_right c t)
    · split
      · next hvalve => exact absurd hvalve.1 (not_lt.mpr hn)
      · exact ih _ _ hrest

/-- Greedy accumulated entropy is monotone in the budget when the escape
valve cannot fire and entropies are nonnegative. -/
theorem greedySelect_cur_mono (t1 t2 : ℚ) (ht : t1 ≤ t2) (l : List SemanticNode) :
    ∀ (sel1 sel2 : List SemanticNode) (c : ℚ),
      (∀ n ∈ l, n.importance ≤ 9/10 ∧ 0 ≤ n.entropy) →
      (greedySelect t1 l sel1 c).2 ≤ (greedySelect t2 l sel2 c).2 := by
  induction l with
  | nil => intro sel1 sel2 c _; simp [greedySelect]
  | cons n rest ih =>
    intro sel1 sel2 c h
    have hn := h n (List.mem_cons_self n rest)
    have hrest : ∀ m ∈ rest, m.importance ≤ 9/10 ∧ 0 ≤ m.entropy :=
      fun m hm => h m (List.mem_cons_of_mem n hm)
    have himp : ∀ m ∈ rest, m.importance ≤ 9/10 := fun m hm => (hrest m hm).1
    have hent : ∀ m ∈ rest, 0 ≤ m.entropy := fun m hm => (hrest m hm).2
    simp only [greedySelect]
    by_cases h1 : c + n.entropy ≤ t1
    · rw [if_pos h1, if_pos (le_trans h1 ht)]
      exact ih _ _ _ hrest
    · rw [if_neg h1, if_neg (by exact fun hv => absurd hv.1 (not_lt.mpr hn.1))]
      by_cases h2 : c + n.entropy ≤ t2
      · rw [if_pos h2]
        calc (greedySelect t1 rest sel1 c).2 ≤ max c t1 :=
              greedySelect_cur_le_max t1 rest sel1 c himp
          _ ≤ c + n.entropy := max_le (le_add_of_nonneg_right hn.2) (le_of_not_le h1)
          _ ≤ (greedySelect t2 rest (sel2 ++ [n]) (c + n.entropy)).2 :=
              greedySelect_cur_ge t2 rest _ _ hent
      · rw [if_neg h2, if_neg (by exact fun hv => absurd hv.1 (not_lt.mpr hn.1))]
        exact ih _ _ _ hrest

/-- Sum of entropies over an appended singleton. -/
theorem entropySum_append_singleton (sel : List SemanticNode) (n : SemanticNode) :
    entropySum (sel ++ [n]) = entropySum sel + n.entropy := by
  simp [entropySum]

/-- The greedy accumulator equals the entropy sum of the selection, provided
it starts in sync. -/
theorem greedySelect_cur_eq_entropySum (t : ℚ) (l : List SemanticNode) :
    ∀ (sel : List SemanticNode) (c : ℚ), c = entropySum sel →
      (greedySelect t l sel c).2 = entropySum (greedySelect t l sel c).1 := by
  induction l with
  | nil => intro sel c hc; simpa [greedySelect] using hc
  | cons n rest ih =>
    intro sel c hc
    simp only [greedySelect]
    split
    · exact ih _ _ (by rw [entropySum_append_singleton, hc])
    · split
      · exact ih _ _ (by rw [entropySum_append_singleton, hc])
      · exact ih _ _ hc

/-- C2, amended.  For graphs with nonnegative entropies none of whose units
can trigger the escape valve (importance at most 0.9), the retained total
entropy of the compressed graph is monotone in the target ratio; the kept
unit COUNT itself is not monotone (see the counterexample). -/
theorem compress_entropy_monotone (graph : SemanticGraph) (preserve_types : List NodeType)
    (r1 r2 : ℚ)
    (himp : ∀ n ∈ graph.nodes, n.importance ≤ 9/10)
    (hent : ∀ n ∈ graph.nodes, 0 ≤ n.entropy)
    (hr : r1 ≤ r2) :
    (compress graph r1 preserve_types).total_entropy ≤
      (compress graph r2 preserve_types).total_entropy := by
  have htot : 0 ≤ graph.total_entropy := by
    apply List.sum_nonneg
    intro x hx
    obtain ⟨n, hn, rfl⟩ := List.mem_map.mp hx
    exact hent n hn
  have ht : graph.total_entropy * r1 ≤ graph.total_entropy * r2 :=
    mul_le_mul_of_nonneg_left hr htot
  have hmemall : ∀ n ∈ sortByImportanceDesc
      (graph.nodes.filter (fun n => decide (n.node_type ∉ preserve_types))),
      n.importance ≤ 9/10 ∧ 0 ≤ n.entropy := by
    intro n hn
    have hn' := (mem_sortByImportanceDesc n _).mp hn
    have hn'' := (List.mem_filter.mp hn').1
    exact ⟨himp n hn'', hent n hn''⟩
  have key := greedySelect_cur_mono (graph.total_entropy * r1) (graph.total_entropy * r2) ht
    (sortByImportanceDesc (graph.nodes.filter (fun n => decide (n.node_type ∉ preserve_types))))
    (graph.nodes.filter (fun n => decide (n.node_type ∈ preserve_types)))
    (graph.nodes.filter (fun n => decide (n.node_type ∈ preserve_types)))
    (entropySum (graph.nodes.filter (fun n => decide (n.node_type ∈ preserve_types))))
    hmemall
  have e1 := greedySelect_cur_eq_entropySum (graph.total_entropy * r1)
    (sortByImportanceDesc (graph.nodes.filter (fun n => decide (n.node_type ∉ preserve_types))))
    (graph.nodes.filter (fun n => decide (n.node_type ∈ preserve_types)))
    (entropySum (graph.nodes.filter (fun n => decide (n.node_type ∈ preserve_types)))) rfl
  have e2 := greedySelect_cur_eq_entropySum (graph.total_entropy * r2)
    (sortByImportanceDesc (graph.nodes.filter (fun n => decide (n.node_type ∉ preserve_types))))
    (graph.nodes.filter (fun n => decide (n.node_type ∈ preserve_types)))
    (entropySum (graph.nodes.filter (fun n => decide (n.node_type ∈ preserve_types)))) rfl
  show entropySum (compressSelect graph r1 preserve_types) ≤
    entropySum (compressSelect graph r2 preserve_types)
  rw [compressSelect, compressSelect]
  rw [← e1, ← e2]
  exact key

/-- Witness for `compress_entropy_monotone` at the concrete graph `gC2`. -/
theorem compress_entropy_monotone_witness :
    (∀ n ∈ gC2.nodes, n.importance ≤ 9/10) ∧ (∀ n ∈ gC2.nodes, 0 ≤ n.entropy) ∧
      ((9 : ℚ)/19 ≤ 10/19) ∧
      (compress gC2 (9/19) defaultPreserve).total_entropy ≤
        (compress gC2 (10/19) defaultPreserve).total_entropy :=
  ⟨by with_unfolding_all decide, by with_unfolding_all decide, by with_unfolding_all decide,
    compress_entropy_monotone gC2 defaultPreserve (9/19) (10/19)
      (by with_unfolding_all decide) (by with_unfolding_all decide)
      (by with_unfolding_all decide)⟩

/-- A graph with zero total entropy (both units have entropy 0): the
out-of-range input the error-handling section says should be rejected. -/
def gZero : SemanticGraph :=
  { nodes :=
      [{ id := "z0", content := "go", node_type := .intent, importance := 1, entropy := 0 },
       { id := "z1", content := "misc", node_type := .detail, importance := 1/2, entropy := 0 }],
    edges := [], root_id := some "z0", original_text := "go misc", original_tokens := 2 }

/-- C7, counterexample.  `GraphCompressor.compress` performs no boundary
validation: on a zero-total-entropy graph combined with a negative target
ratio it silently returns a (degenerate) compressed graph — here the whole
graph — rather than rejecting the input with a validation error.  The
embedded `compress` is total because the Python method contains no raise or
validation path at all. -/
theorem compress_no_validation_cex :
    gZero.total_entropy = 0 ∧
      (compress gZero (-1) defaultPreserve).node_count = 2 ∧
      (compress gZero (-1) defaultPreserve).node_count = gZero.node_count := by
  refine ⟨?_, ?_, ?_⟩ <;> with_unfolding_all decide

/-- When every walked node has zero entropy and the accumulator already fits
the budget, the greedy walk takes everything. -/
theorem greedySelect_all_zero (t : ℚ) (l : List SemanticNode) :
    ∀ (sel : List SemanticNode) (c : ℚ), (∀ n ∈ l, n.entropy = 0) → c ≤ t →
      (greedySelect t l sel c).1.length = sel.length + l.length := by
  induction l with
  | nil => intro sel c _ _; simp [greedySelect]
  | cons n rest ih =>
    intro sel c hz hc
    have hn : n.entropy = 0 := hz n (List.mem_cons_self n rest)
    have hrest : ∀ m ∈ rest, m.entropy = 0 := fun m hm => hz m (List.mem_cons_of_mem n hm)
    simp only [greedySelect]
    rw [if_pos (by rw [hn, add_zero]; exact hc)]
    rw [ih (sel ++ [n]) (c + n.entropy) hrest (by rw [hn, add_zero]; exact hc)]
    simp [List.length_append]
    omega

/-- Splitting a list by a decidable predicate and its negation preserves the
total length. -/
theorem length_filter_partition {α : Type} (p : α → Prop) [DecidablePred p] (l : List α) :
    (l.filter (fun x => decide (p x))).length +
      (l.filter (fun x => decide (¬ p x))).length = l.length := by
  have h := List.length_eq_length_filter_add (l := l) (fun x => decide (p x))
  simp only [decide_not] at h ⊢
  omega

/-- C7, amended.  The compressor does not reject out-of-range input: for any
graph all of whose units have zero entropy (hence zero total entropy), and ANY
target ratio — negative included — `compress` silently returns the whole
graph instead of raising a validation error. -/
theorem compress_zero_entropy_degenerate (graph : SemanticGraph) (target_ratio : ℚ)
    (preserve_types : List NodeType)
    (hz : ∀ n ∈ graph.nodes, n.entropy = 0) :
    (compress graph target_ratio preserve_types).node_count = graph.node_count := by
  have htot : graph.total_entropy = 0 := by
    apply List.sum_eq_zero
    intro x hx
    obtain ⟨n, hn, rfl⟩ := List.mem_map.mp hx
    exact hz n hn
  have hzsort : ∀ n ∈ sortByImportanceDesc
      (graph.nodes.filter (fun n => decide (n.node_type ∉ preserve_types))), n.entropy = 0 := by
    intro n hn
    exact hz n (List.mem_filter.mp ((mem_sortByImportanceDesc n _).mp hn)).1
  have hmkzero : entropySum (graph.nodes.filter
      (fun n => decide (n.node_type ∈ preserve_types))) = 0 := by
    apply List.sum_eq_zero
    intro x hx
    obtain ⟨n, hn, rfl⟩ := List.mem_map.mp hx
    exact hz n (List.mem_filter.mp hn).1
  show (greedySelect (graph.total_entropy * target_ratio)
      (sortByImportanceDesc (graph.nodes.filter (fun n => decide (n.node_type ∉ preserve_types))))
      (graph.nodes.filter (fun n => decide (n.node_type ∈ preserve_types)))
      (entropySum (graph.nodes.filter
        (fun n => decide (n.node_type ∈ preserve_types))))).1.length = graph.nodes.length
  rw [greedySelect_all_zero _ _ _ _ hzsort (by rw [hmkzero, htot, zero_mul])]
  rw [length_sortByImportanceDesc]
  exact length_filter_partition (fun n => n.node_type ∈ preserve_types) graph.nodes

/-- Witness for `compress_zero_entropy_degenerate` at `gZero`, ratio −1. -/
theorem compress_zero_entropy_degenerate_witness :
    (∀ n ∈ gZero.nodes, n.entropy = 0) ∧
      (compress gZero (-1) defaultPreserve).node_count = gZero.node_count :=
  ⟨by with_unfolding_all decide,
    compress_zero_entropy_degenerate gZero (-1) defaultPreserve
      (by with_unfolding_all decide)⟩

/-- The stop-word set of `IterativeGraphPipeline._boost_importance`. -/
def stop_words : List String :=
  ["the", "a", "an", "and", "or", "but", "in", "on", "at", "to", "for", "of", "with", "by"]

/-- Python `s.lower().split()` as used by `_boost_importance`: case fold and
split on whitespace, discarding empty pieces. -/
def lowerSplit (s : String) : List String :=
  (s.toLower.split Char.isWhitespace).filter (fun w => decide (w ≠ ""))

/-- Term extraction of `_boost_importance`: lowercase whitespace-split words,
excluding stop words and words of length at most 2. -/
def extractTerms (s : String) : List String :=
  (lowerSplit s).filter (fun t => decide (t ∉ stop_words) && decide (2 < t.length))

/-- The missing-term set built from all missing-concept phrases (Python set:
only membership is ever used, so a concatenated list is an adequate model). -/
def missingTerms (missing_concepts : List String) : List String :=
  (missing_concepts.map extractTerms).flatten

/-- The per-node body of `_boost_importance`: if the node's term set overlaps
the missing-term set, multiply importance by 1.5 (overlap ratio above 0.3) or
1.2, capped at 1.0; report whether the importance strictly increased. -/
def boostNode (missing_terms : List String) (n : SemanticNode) : SemanticNode × Bool :=
  let node_terms := (extractTerms n.content).dedup
  let overlap := node_terms.filter (fun t => decide (t ∈ missing_terms))
  if overlap.length ≠ 0 then
    let overlap_ratio : ℚ := (overlap.length : ℚ) / (max node_terms.length 1 : ℚ)
    let boost : ℚ := if 3/10 < overlap_ratio then 3/2 else 12/10
    let new_importance := min (n.importance * boost) 1
    ({ n with importance := new_importance }, decide (n.importance < new_importance))
  else
    (n, false)

/-- `IterativeGraphPipeline._boost_importance`: mutate the graph's node
importances in place (modelled as returning the updated graph) and count the
boosted nodes; a no-op returning 0 when `missing_concepts` is empty. -/
def boost_importance (graph : SemanticGraph) (missing_concepts : List String) :
    SemanticGraph × Nat :=
  if missing_concepts.isEmpty then (graph, 0)
  else
    let missing := missingTerms missing_concepts
    let results := graph.nodes.map (boostNode missing)
    ({ graph with nodes := results.map Prod.fst },
      (results.filter (fun r => r.2)).length)

/-- A boosted node whose importance changed is capped at 1. -/
theorem boostNode_modified_le_one (missing_terms : List String) (n : SemanticNode)
    (hmod : (boostNode missing_terms n).1.importance ≠ n.importance) :
    (boostNode missing_terms n).1.importance ≤ 1 := by
  dsimp only [boostNode] at hmod ⊢
  by_cases h : ((extractTerms n.content).dedup.filter
      (fun t => decide (t ∈ missing_terms))).length ≠ 0
  · rw [if_pos h]
    exact min_le_right _ 1
  · rw [if_neg h] at hmod
    exact absurd rfl hmod

/-- C9.  After `boost_importance`, no unit whose importance the boost actually
modified has importance above 1: position by position, a changed importance is
`min(old × factor, 1)` and hence at most 1. -/
theorem boost_importance_cap (graph : SemanticGraph) (missing_concepts : List String)
    (i : Nat) (hi : i < (boost_importance graph missing_concepts).1.nodes.length)
    (hi' : i < graph.nodes.length)
    (hmod : ((boost_importance graph missing_concepts).1.nodes.get ⟨i, hi⟩).importance ≠
      (graph.nodes.get ⟨i, hi'⟩).importance) :
    ((boost_importance graph missing_concepts).1.nodes.get ⟨i, hi⟩).importance ≤ 1 := by
  by_cases hemp : missing_concepts.isEmpty
  · exfalso
    apply hmod
    have hnodes : (boost_importance graph missing_concepts).1.nodes = graph.nodes := by
      dsimp only [boost_importance]
      rw [if_pos hemp]
    exact congrArg (fun m => m.importance) (List.get_of_eq hnodes ⟨i, hi⟩)
  · have hnodes : (boost_importance graph missing_concepts).1.nodes =
        (graph.nodes.map (boostNode (missingTerms missing_concepts))).map Prod.fst := by
      dsimp only [boost_importance]
      rw [if_neg hemp]
    have hget : (boost_importance graph missing_concepts).1.nodes.get ⟨i, hi⟩ =
        (boostNode (missingTerms missing_concepts) (graph.nodes.get ⟨i, hi'⟩)).1 := by
      rw [List.get_of_eq hnodes ⟨i, hi⟩]
      simp [List.getElem_map]
    rw [hget] at hmod ⊢
    exact boostNode_modified_le_one _ _ hmod

/-- Concrete boosted graph from the spec's worked example: one `entity` unit
"enterprise segment is concerning" at importance 0.75, and the missing concept
"23% decline in enterprise segment". -/
def gBoost : SemanticGraph :=
  { nodes := [{ id := "e0", content := "enterprise segment is concerning",
                node_type := .entity, importance := 3/4, entropy := 12 }],
    edges := [], root_id := none,
    original_text := "enterprise revenue", original_tokens := 2 }

/-- Witness for `boost_importance_cap`: the `gBoost` unit overlaps the missing
concept on terms enterprise and segment (ratio 2/3 > 0.3), so its importance
becomes min(0.75 × 1.5, 1) = 1, which indeed changed and is at most 1. -/
theorem boost_importance_cap_witness :
    (((boost_importance gBoost ["23% decline in enterprise segment"]).1.nodes.get
        ⟨0, by with_unfolding_all decide⟩).importance ≠
      ((gBoost.nodes.get ⟨0, by with_unfolding_all decide⟩)).importance) ∧
    ((boost_importance gBoost ["23% decline in enterprise segment"]).1.nodes.get
        ⟨0, by with_unfolding_all decide⟩).importance ≤ 1 :=
  ⟨by with_unfolding_all decide,
    boost_importance_cap gBoost ["23% decline in enterprise segment"] 0
      (by with_unfolding_all decide) (by with_unfolding_all decide)
      (by with_unfolding_all decide)⟩

/-- The mutable fields of a Python `SemanticNode` object.  To reason about
object sharing, node objects live in an explicit heap keyed by their id (ids
are unique within a run, and `SemanticNode.__eq__`/`__hash__` use only the
id, so the id serves as the object reference). -/
structure NodeData where
  content : String
  node_type : NodeType
  importance : ℚ
  entropy : ℚ
  deriving DecidableEq, Repr

/-- Association-list lookup in the node heap. -/
def heapLookup : List (String × NodeData) → String → Option NodeData
  | [], _ => none
  | (k, d) :: rest, r => if k = r then some d else heapLookup rest r

/-- Mutating a node object's importance field through any alias: the heap
entry for reference `r` is updated in place. -/
def heapSetImportance : List (String × NodeData) → String → ℚ → List (String × NodeData)
  | [], _, _ => []
  | (k, d) :: rest, r, v =>
    if k = r then (k, { d with importance := v }) :: heapSetImportance rest r v
    else (k, d) :: heapSetImportance rest r v

/-- A Python `SemanticGraph` at the object level: its node dict holds
references into the heap (the dict key is the node's id, the value the shared
object). -/
structure HeapGraph where
  nodeRefs : List String
  edges : List SemanticEdge
  root_id : Option String
  original_text : String
  original_tokens : Nat
  deriving DecidableEq, Repr

/-- The graph of node values a heap graph denotes under heap `h`. -/
def derefGraph (h : List (String × NodeData)) (g : HeapGraph) : SemanticGraph :=
  { nodes := g.nodeRefs.filterMap (fun r => (heapLookup h r).map
      (fun d => { id := r, content := d.content, node_type := d.node_type,
                  importance := d.importance, entropy := d.entropy }))
    edges := g.edges
    root_id := g.root_id
    original_text := g.original_text
    original_tokens := g.original_tokens }

/-- `GraphCompressor.compress` at the object level: the selection is computed
from the node values currently on the heap, and the output graph holds the
very same references, because `_build_compressed_graph` calls
`compressed.add_node(node)` with the original node objects rather than
copies.  The heap is read, never written, and `g` is returned unchanged —
`compress` itself never mutates its input. -/
def compressHeap (h : List (String × NodeData)) (g : HeapGraph) (target_ratio : ℚ)
    (preserve_types : List NodeType) : HeapGraph :=
  let selected := compressSelect (derefGraph h g) target_ratio preserve_types
  let selected_ids := selected.map (fun n => n.id)
  { nodeRefs := selected_ids
    edges := g.edges.filter
      (fun e => decide (e.source ∈ selected_ids) && decide (e.target ∈ selected_ids))
    root_id := g.root_id
    original_text := g.original_text
    original_tokens := g.original_tokens }

/-- The importance observed by reading unit `r` through graph `g` under heap
`h` (none when `g` does not hold the reference or it dangles). -/
def observedImportance (h : List (String × NodeData)) (g : HeapGraph) (r : String) :
    Option ℚ :=
  if r ∈ g.nodeRefs then (heapLookup h r).map (fun d => d.importance) else none

/-- A one-object heap for the sharing counterexample: an `intent` node at
importance 3/4. -/
def hC3 : List (String × NodeData) :=
  [("a", { content := "ship it", node_type := .intent, importance := 3/4, entropy := 2 })]

/-- The graph holding the single object of `hC3`. -/
def gC3 : HeapGraph :=
  { nodeRefs := ["a"], edges := [], root_id := some "a",
    original_text := "ship it", original_tokens := 2 }

/-- C3, counterexample.  The compressed graph does NOT share-nothing with its
source: compressing `gC3` keeps unit `a`, and subsequently mutating that
unit's importance through the original graph (a heap write to the shared
object) changes the value observed through the previously returned compressed
graph — from 3/4 to 1/2 — because `_build_compressed_graph` inserts the
original node objects, not copies. -/
theorem compress_shares_mutable_state_cex :
    observedImportance hC3 (compressHeap hC3 gC3 1 defaultPreserve) "a" = some (3/4) ∧
      observedImportance (heapSetImportance hC3 "a" (1/2))
        (compressHeap hC3 gC3 1 defaultPreserve) "a" = some (1/2) ∧
      (3/4 : ℚ) ≠ 1/2 := by
  refine ⟨?_, ?_, ?_⟩ <;> with_unfolding_all decide

/-- Setting the importance of reference `r` updates exactly its heap entry. -/
theorem heapLookup_setImportance (h : List (String × NodeData)) (r : String) (v : ℚ) :
    heapLookup (heapSetImportance h r v) r =
      (heapLookup h r).map (fun d => { d with importance := v }) := by
  induction h with
  | nil => rfl
  | cons p rest ih =>
    obtain ⟨k, d⟩ := p
    by_cases hk : k = r
    · subst hk
      simp [heapSetImportance, heapLookup]
    · simp [heapSetImportance, heapLookup, hk, ih]

/-- Every node value of a dereferenced graph comes from a live heap entry. -/
theorem mem_derefGraph_lookup (h : List (String × NodeData)) (g : HeapGraph)
    (n : SemanticNode) (hn : n ∈ (derefGraph h g).nodes) :
    ∃ d, heapLookup h n.id = some d := by
  obtain ⟨r, _, hr⟩ := List.mem_filterMap.mp hn
  obtain ⟨d, hd, hmk⟩ := Option.map_eq_some'.mp hr
  refine ⟨d, ?_⟩
  have : n.id = r := by rw [← hmk]
  rw [this]
  exact hd

/-- C3, amended.  `compress` never mutates its input (it only reads the heap
and returns a fresh graph object whose scalar fields — root id, source text,
token count — are value-copies), but the returned graph holds the same unit
objects as its source rather than copies: for every unit kept by compression,
mutating that unit's importance through the original graph is observed
through the compressed graph. -/
theorem compress_shares_node_objects (h : List (String × NodeData)) (g : HeapGraph)
    (target_ratio : ℚ) (preserve_types : List NodeType) (r : String) (v : ℚ)
    (hr : r ∈ (compressHeap h g target_ratio preserve_types).nodeRefs) :
    observedImportance (heapSetImportance h r v)
        (compressHeap h g target_ratio preserve_types) r = some v ∧
      (compressHeap h g target_ratio preserve_types).root_id = g.root_id ∧
      (compressHeap h g target_ratio preserve_types).original_text = g.original_text ∧
      (compressHeap h g target_ratio preserve_types).original_tokens = g.original_tokens := by
  refine ⟨?_, rfl, rfl, rfl⟩
  have hr' : r ∈ (compressSelect (derefGraph h g) target_ratio preserve_types).map
      (fun n => n.id) := hr
  obtain ⟨n, hnsel, hnid⟩ := List.mem_map.mp hr'
  have hnmem : n ∈ (derefGraph h g).nodes := by
    rcases mem_greedySelect_elim _ _ _ _ n hnsel with hk | hk
    · exact (List.mem_filter.mp hk).1
    · exact (List.mem_filter.mp ((mem_sortByImportanceDesc n _).mp hk)).1
  obtain ⟨d, hd⟩ := mem_derefGraph_lookup h g n hnmem
  rw [observedImportance, if_pos hr, ← hnid, heapLookup_setImportance, hd]
  rfl

/-- Witness for `compress_shares_node_objects` at the concrete heap `hC3`. -/
theorem compress_shares_node_objects_witness :
    "a" ∈ (compressHeap hC3 gC3 1 defaultPreserve).nodeRefs ∧
      observedImportance (heapSetImportance hC3 "a" (1/2))
        (compressHeap hC3 gC3 1 defaultPreserve) "a" = some (1/2) :=
  ⟨by with_unfolding_all decide,
    (compress_shares_node_objects hC3 gC3 1 defaultPreserve "a" (1/2)
      (by with_unfolding_all decide)).1⟩

/-- `GraphEncoder._calculate_entropy`: case-fold the text (Python
`text.lower()`, modelled characterwise), count each distinct character,
accumulate `−p·log2 p` for each count with `p = count / len(text)`, and scale
by `len(text) / 8`.  Empty text short-circuits to 0; the second `total_chars
== 0` guard of the source is unreachable and folds into the same branch.
Floats are modelled as reals. -/
noncomputable def calculate_entropy (text : List Char) : ℝ :=
  if text.length = 0 then 0
  else
    ((text.map Char.toLower).dedup.map (fun c =>
        if 0 < ((text.map Char.toLower).count c : ℝ) / (text.length : ℝ) then
          -((((text.map Char.toLower).count c : ℝ) / (text.length : ℝ)) *
            Real.logb 2 (((text.map Char.toLower).count c : ℝ) / (text.length : ℝ)))
        else 0)).sum * (text.length : ℝ) / 8

/-- The Shannon entropy `H = −Σ p(c)·log2 p(c)` of the case-folded character
distribution of the text, written as the specification words it; defined only
to compare the code's scorer against the spec's formula. -/
noncomputable def shannonEntropySpec (text : List Char) : ℝ :=
  -(((text.map Char.toLower).dedup).map (fun c =>
      (((text.map Char.toLower).count c : ℝ) / (text.length : ℝ)) *
        Real.logb 2 (((text.map Char.toLower).count c : ℝ) / (text.length : ℝ)))).sum

/-- The positivity guard of the entropy loop is always taken, so the guarded
sum is the negated Shannon sum. -/
theorem sum_entropy_guard_eq (l : List Char) (p : Char → ℝ) (hp : ∀ c ∈ l, 0 < p c) :
    (l.map (fun c => if 0 < p c then -(p c * Real.logb 2 (p c)) else 0)).sum =
      -((l.map (fun c => p c * Real.logb 2 (p c))).sum) := by
  induction l with
  | nil => simp
  | cons c cs ih =>
    have hc := hp c (List.mem_cons_self c cs)
    have hcs := ih (fun d hd => hp d (List.mem_cons_of_mem _ hd))
    simp only [List.map_cons, List.sum_cons, if_pos hc, hcs]
    ring

/-- C6.  The entropy score equals `H × len(text) / 8` for the Shannon entropy
H of the case-folded character distribution, the empty text scores 0, and the
score is never negative (every summand `−p·log2 p` with `0 < p ≤ 1` is
nonnegative). -/
theorem calculate_entropy_spec (text : List Char) :
    calculate_entropy text = shannonEntropySpec text * (text.length : ℝ) / 8 ∧
      calculate_entropy [] = 0 ∧
      0 ≤ calculate_entropy text := by
  by_cases hlen : text.length = 0
  · have htext : text = [] := List.length_eq_zero.mp hlen
    subst htext
    refine ⟨?_, ?_, ?_⟩ <;> simp [calculate_entropy, shannonEntropySpec]
  · have hlenpos : (0 : ℝ) < (text.length : ℝ) := by
      exact_mod_cast Nat.pos_of_ne_zero hlen
    have hp_pos : ∀ c ∈ (text.map Char.toLower).dedup,
        0 < ((text.map Char.toLower).count c : ℝ) / (text.length : ℝ) := by
      intro c hc
      have hcmem : c ∈ text.map Char.toLower := List.mem_dedup.mp hc
      have hcount : 0 < (text.map Char.toLower).count c := List.count_pos_iff.mpr hcmem
      exact div_pos (by exact_mod_cast hcount) hlenpos
    have hp_le_one : ∀ c ∈ (text.map Char.toLower).dedup,
        ((text.map Char.toLower).count c : ℝ) / (text.length : ℝ) ≤ 1 := by
      intro c _
      rw [div_le_one hlenpos]
      have h1 : (text.map Char.toLower).count c ≤ (text.map Char.toLower).length :=
        List.count_le_length c (text.map Char.toLower)
      have h2 : (text.map Char.toLower).length = text.length := List.length_map text _
      exact_mod_cast h2 ▸ h1
    refine ⟨?_, ?_, ?_⟩
    · rw [calculate_entropy, if_neg hlen, shannonEntropySpec,
        sum_entropy_guard_eq _ _ hp_pos]
    · simp [calculate_entropy]
    · rw [calculate_entropy, if_neg hlen]
      apply div_nonneg _ (by norm_num)
      apply mul_nonneg _ hlenpos.le
      apply List.sum_nonneg
      intro x hx
      obtain ⟨c, hc, rfl⟩ := List.mem_map.mp hx
      rw [if_pos (hp_pos c hc)]
      rw [neg_nonneg]
      exact mul_nonpos_of_nonneg_of_nonpos (hp_pos c hc).le
        (Real.logb_nonpos one_lt_two (hp_pos c hc).le (hp_le_one c hc))

/-- The retention statistics of `GraphCompressor.get_compression_stats`. -/
structure CompressionStats where
  original_nodes : Nat
  compressed_nodes : Nat
  nodes_removed : Int
  node_retention : ℚ
  original_entropy : ℚ
  compressed_entropy : ℚ
  entropy_retention : ℚ
  original_importance : ℚ
  compressed_importance : ℚ
  importance_retention : ℚ

/-- `GraphCompressor.get_compression_stats`: retention ratios between a graph
and one of its compressions, with division-by-zero guards. -/
def get_compression_stats (original compressed : SemanticGraph) : CompressionStats :=
  { original_nodes := original.node_count
    compressed_nodes := compressed.node_count
    nodes_removed := (original.node_count : Int) - (compressed.node_count : Int)
    node_retention :=
      if 0 < original.node_count then
        (compressed.node_count : ℚ) / (original.node_count : ℚ) else 0
    original_entropy := original.total_entropy
    compressed_entropy := compressed.total_entropy
    entropy_retention :=
      if 0 < original.total_entropy then
        compressed.total_entropy / original.total_entropy else 0
    original_importance := original.total_importance
    compressed_importance := compressed.total_importance
    importance_retention :=
      if 0 < original.total_importance then
        compressed.total_importance / original.total_importance else 0 }

/-- The per-iteration telemetry record (`IterationResult`).  `nodes_by_type`
is the count-by-kind dict as a function; `decoded_tokens / original_tokens`
uses rational division (the Python would raise `ZeroDivisionError` on an
empty source message, a case no claim depends on). -/
structure IterationResult where
  iteration : Nat
  entropy_target : ℚ
  nodes_kept : Nat
  total_nodes : Nat
  decoded_tokens : Nat
  original_tokens : Nat
  compression_ratio : ℚ
  similarity_score : ℚ
  decoded_message : String
  missing_concepts : List String
  graph : SemanticGraph
  total_entropy : ℚ
  retained_entropy : ℚ
  total_importance : ℚ
  retained_importance : ℚ
  nodes_by_type : NodeType → Nat
  avg_node_importance : ℚ
  compression_stats : CompressionStats

/-- The final run record (`PipelineResult`). -/
structure PipelineResult where
  success : Bool
  iterations : List IterationResult
  final_message : String
  final_similarity : ℚ
  final_compression : ℚ
  original_tokens : Nat
  final_tokens : Nat

/-- The controller's tunable parameters (constructor arguments of
`IterativeGraphPipeline`). -/
structure PipelineConfig where
  target_similarity : ℚ
  initial_entropy_target : ℚ
  max_iterations : Nat
  entropy_step : ℚ

/-- The four external collaborators consumed inside the loop, as black-box
functions: the tokenizer, the Reconstructor (`GraphDecoder.decode`), the
Fidelity Judge (`SemanticJudge.evaluate`, of which only the similarity score
is consumed) and the Loss Analyzer (`_analyze_loss`; `none` models the
exception path, which the controller degrades to the empty list). -/
structure PipelineExternals where
  count_tokens : String → Nat
  decode : SemanticGraph → String
  judge_score : String → String → ℚ
  analyze_loss : String → String → Option (List String)

/-- Observable external-call events of one run, recorded for the temporal
claims: each Loss-Analyzer invocation and each Importance-Booster invocation,
tagged with its 1-based iteration number. -/
inductive PipelineEvent where
  | lossCall (iteration : Nat)
  | boostCall (iteration : Nat)
  deriving DecidableEq, Repr

/-- One loop body of `IterativeGraphPipeline.compress` (steps compress →
decode → judge → analyze-loss → telemetry), producing the iteration record. -/
def runIteration (ext : PipelineExternals) (message : String)
    (original_tokens : Nat) (iteration : Nat) (graph : SemanticGraph)
    (entropy_target : ℚ) : IterationResult :=
  let compressed := compress graph entropy_target defaultPreserve
  let decoded := ext.decode compressed
  let decoded_tokens := ext.count_tokens decoded
  let compression_ratio := (decoded_tokens : ℚ) / (original_tokens : ℚ)
  let similarity := ext.judge_score message decoded
  let missing_concepts := (ext.analyze_loss message decoded).getD []
  { iteration := iteration
    entropy_target := entropy_target
    nodes_kept := compressed.node_count
    total_nodes := graph.node_count
    decoded_tokens := decoded_tokens
    original_tokens := original_tokens
    compression_ratio := compression_ratio
    similarity_score := similarity
    decoded_message := decoded
    missing_concepts := missing_concepts
    graph := compressed
    total_entropy := graph.total_entropy
    retained_entropy := compressed.total_entropy
    total_importance := graph.total_importance
    retained_importance := compressed.total_importance
    nodes_by_type := fun t => (compressed.nodes.filter (fun n => decide (n.node_type = t))).length
    avg_node_importance :=
      if 0 < compressed.node_count then
        compressed.total_importance / (compressed.node_count : ℚ) else 0
    compression_stats := get_compression_stats graph compressed }

/-- The iteration loop of `IterativeGraphPipeline.compress`.  `fuel` counts
the remaining iterations (`max_iterations` at the top call, so `iteration +
fuel = max_iterations + 1` throughout); the Loss Analyzer runs in every
iteration before the convergence check, exactly as in the source; on
convergence the loop returns the success record built from the current
iteration; the booster and the conditional entropy-target relaxation
(`similarity < 0.70`, step capped at 0.95) run only below the last allowed
iteration.  Exhaustion returns the last iteration's results; `none` models
the `IndexError` the source would raise on `iterations[-1]` when
`max_iterations` is 0. -/
def runLoop (cfg : PipelineConfig) (ext : PipelineExternals) (message : String)
    (original_tokens : Nat) :
    Nat → Nat → SemanticGraph → ℚ → List IterationResult → List PipelineEvent →
    Option PipelineResult × List PipelineEvent
  | 0, _, _, _, iterations, trace =>
    match iterations.getLast? with
    | none => (none, trace)
    | some last =>
      (some { success := false
              iterations := iterations
              final_message := last.decoded_message
              final_similarity := last.similarity_score
              final_compression := last.compression_ratio
              original_tokens := original_tokens
              final_tokens := last.decoded_tokens }, trace)
  | fuel + 1, iteration, graph, entropy_target, iterations, trace =>
    let ir := runIteration ext message original_tokens iteration graph entropy_target
    let trace1 := trace ++ [PipelineEvent.lossCall iteration]
    let iterations1 := iterations ++ [ir]
    if cfg.target_similarity ≤ ir.similarity_score then
      (some { success := true
              iterations := iterations1
              final_message := ir.decoded_message
              final_similarity := ir.similarity_score
              final_compression := ir.compression_ratio
              original_tokens := original_tokens
              final_tokens := ir.decoded_tokens }, trace1)
    else if iteration < cfg.max_iterations then
      let trace2 := trace1 ++ [PipelineEvent.boostCall iteration]
      let boosted := boost_importance graph ir.missing_concepts
      let next_target :=
        if ir.similarity_score < 70/100 then
          min (entropy_target + cfg.entropy_step) (95/100)
        else entropy_target
      runLoop cfg ext message original_tokens fuel (iteration + 1) boosted.1
        next_target iterations1 trace2
    else
      runLoop cfg ext message original_tokens fuel (iteration + 1) graph
        entropy_target iterations1 trace1

/-- `IterativeGraphPipeline.compress`: encode once (the working graph is the
Structure Extractor's output, taken as a parameter), pick the initial entropy
target (0.90 for sources above 1000 tokens, else the configured default), and
iterate. -/
def pipeline_compress (cfg : PipelineConfig) (ext : PipelineExternals)
    (message : String) (graph : SemanticGraph) :
    Option PipelineResult × List PipelineEvent :=
  let original_tokens := ext.count_tokens message
  let entropy_target :=
    if 1000 < original_tokens then 90/100 else cfg.initial_entropy_target
  runLoop cfg ext message original_tokens cfg.max_iterations 1 graph entropy_target [] []

/-- Invariant of the iteration loop: among the returned iterations only the
last one can have reached the similarity target; success is reported exactly
from a converged final iteration, whose candidate text, similarity,
compression and token count become the run's final fields; and an exhausted
run contains no converged iteration at all. -/
theorem runLoop_success_spec (cfg : PipelineConfig) (ext : PipelineExternals)
    (message : String) (otk : Nat) :
    ∀ (fuel iteration : Nat) (graph : SemanticGraph) (t : ℚ)
      (acc : List IterationResult) (tr : List PipelineEvent),
      (∀ x ∈ acc, x.similarity_score < cfg.target_similarity) →
      ∀ res : PipelineResult,
        (runLoop cfg ext message otk fuel iteration graph t acc tr).1 = some res →
        (∀ x ∈ res.iterations.dropLast, x.similarity_score < cfg.target_similarity) ∧
        (res.success = true →
          ∃ last, res.iterations.getLast? = some last ∧
            cfg.target_similarity ≤ last.similarity_score ∧
            res.final_message = last.decoded_message ∧
            res.final_similarity = last.similarity_score ∧
            res.final_compression = last.compression_ratio ∧
            res.final_tokens = last.decoded_tokens) ∧
        (res.success = false →
          ∀ x ∈ res.iterations, x.similarity_score < cfg.target_similarity) := by
  intro fuel
  induction fuel with
  | zero =>
    intro iteration graph t acc tr hacc res hres
    cases hlast : acc.getLast? with
    | none => simp [runLoop, hlast] at hres
    | some last =>
      simp only [runLoop, hlast] at hres
      obtain rfl : _ = res := Option.some.inj hres
      refine ⟨?_, ?_, ?_⟩
      · intro x hx
        exact hacc x ((List.dropLast_sublist _).subset hx)
      · intro h; cases h
      · intro _ x hx
        exact hacc x hx
  | succ fuel ih =>
    intro iteration graph t acc tr hacc res hres
    simp only [runLoop] at hres
    by_cases hsim : cfg.target_similarity ≤
        (runIteration ext message otk iteration graph t).similarity_score
    · rw [if_pos hsim] at hres
      obtain rfl : _ = res := Option.some.inj hres
      refine ⟨?_, ?_, ?_⟩
      · intro x hx
        rw [List.dropLast_concat] at hx
        exact hacc x hx
      · intro _
        exact ⟨runIteration ext message otk iteration graph t,
          List.getLast?_concat _, hsim, rfl, rfl, rfl, rfl⟩
      · intro h; cases h
    · rw [if_neg hsim] at hres
      have hacc' : ∀ x ∈ acc ++ [runIteration ext message otk iteration graph t],
          x.similarity_score < cfg.target_similarity := by
        intro x hx
        rcases List.mem_append.mp hx with h | h
        · exact hacc x h
        · rw [List.mem_singleton.mp h]
          exact not_le.mp hsim
      by_cases hit : iteration < cfg.max_iterations
      · rw [if_pos hit] at hres
        exact ih _ _ _ _ _ hacc' res hres
      · rw [if_neg hit] at hres
        exact ih _ _ _ _ _ hacc' res hres

/-- In a list whose length is `j + 1`, position `j` is the last element. -/
theorem getLast?_eq_get_of_len {α : Type} (l : List α) (j : Nat) (hj : j < l.length)
    (hlen : j + 1 = l.length) : l.getLast? = some (l.get ⟨j, hj⟩) := by
  have hne : l ≠ [] := List.ne_nil_of_length_pos (by omega)
  have hidx : l.length - 1 = j := by omega
  rw [List.getLast?_eq_getLast l hne, List.getLast_eq_getElem l hne]
  simp [List.get_eq_getElem, hidx]

/-- C5.  If some iteration of a completed run reached the similarity target,
that iteration is the run's last performed iteration (the controller ran no
later iteration), the run reports success, and the final candidate text,
similarity, compression ratio and token count are that iteration's own — the
iteration record, with its compressed graph, being the last telemetry
entry. -/
theorem pipeline_first_convergence (cfg : PipelineConfig) (ext : PipelineExternals)
    (message : String) (graph : SemanticGraph) (res : PipelineResult) (j : Nat)
    (hres : (pipeline_compress cfg ext message graph).1 = some res)
    (hj : j < res.iterations.length)
    (hsim : cfg.target_similarity ≤ (res.iterations.get ⟨j, hj⟩).similarity_score) :
    res.success = true ∧ j + 1 = res.iterations.length ∧
      res.iterations.getLast? = some (res.iterations.get ⟨j, hj⟩) ∧
      res.final_message = (res.iterations.get ⟨j, hj⟩).decoded_message ∧
      res.final_similarity = (res.iterations.get ⟨j, hj⟩).similarity_score ∧
      res.final_compression = (res.iterations.get ⟨j, hj⟩).compression_ratio ∧
      res.final_tokens = (res.iterations.get ⟨j, hj⟩).decoded_tokens := by
  obtain ⟨h1, h2, h3⟩ := runLoop_success_spec cfg ext message (ext.count_tokens message)
    cfg.max_iterations 1 graph _ [] [] (by intro x hx; cases hx) res hres
  have hmem : res.iterations.get ⟨j, hj⟩ ∈ res.iterations := res.iterations.get_mem j hj
  have hsucc : res.success = true := by
    cases hs : res.success with
    | false => exact absurd hsim (not_le.mpr (h3 hs _ hmem))
    | true => rfl
  obtain ⟨last, hlast, hlast_sim, hmsg, hsim2, hcomp, htok⟩ := h2 hsucc
  have hlastidx : j + 1 = res.iterations.length := by
    by_contra hne
    have hlen : j < res.iterations.dropLast.length := by
      rw [List.length_dropLast]
      omega
    have hgd : res.iterations.dropLast.get ⟨j, hlen⟩ = res.iterations.get ⟨j, hj⟩ := by
      simp [List.getElem_dropLast]
    have hdx : res.iterations.get ⟨j, hj⟩ ∈ res.iterations.dropLast := by
      rw [← hgd]
      exact res.iterations.dropLast.get_mem j hlen
    exact absurd hsim (not_le.mpr (h1 _ hdx))
  have hgl : res.iterations.getLast? = some (res.iterations.get ⟨j, hj⟩) :=
    getLast?_eq_get_of_len _ j hj hlastidx
  have hlast_eq : last = res.iterations.get ⟨j, hj⟩ := by
    have := hgl ▸ hlast
    exact Option.some.inj this.symm
  subst hlast_eq
  exact ⟨hsucc, hlastidx, hgl, hmsg, hsim2, hcomp, htok⟩

/-- A concrete configuration: similarity target 0.8, initial entropy target
0.4, one allowed iteration, relaxation step 0.1. -/
def cfgRun : PipelineConfig :=
  { target_similarity := 8/10, initial_entropy_target := 4/10,
    max_iterations := 1, entropy_step := 1/10 }

/-- Concrete externals for a converging run: a length tokenizer, a constant
reconstruction, a judge always returning similarity 1, and a Loss Analyzer
whose call fails (degrading to the empty list). -/
def extRun : PipelineExternals :=
  { count_tokens := fun s => s.length, decode := fun _ => "candidate",
    judge_score := fun _ _ => 1, analyze_loss := fun _ _ => none }

/-- The result record of the concrete run (its computed value). -/
def resRun : PipelineResult :=
  ((pipeline_compress cfgRun extRun "msg" gW).1).getD
    { success := false, iterations := [], final_message := "",
      final_similarity := 0, final_compression := 0, original_tokens := 0,
      final_tokens := 0 }

/-- Witness for `pipeline_first_convergence`: the concrete run converges at
its first iteration and is reported successful. -/
theorem pipeline_first_convergence_witness :
    (pipeline_compress cfgRun extRun "msg" gW).1 = some resRun ∧
      resRun.success = true := by
  have h0 : (pipeline_compress cfgRun extRun "msg" gW).1 = some resRun := by
    with_unfolding_all rfl
  exact ⟨h0, (pipeline_first_convergence cfgRun extRun "msg" gW resRun 0 h0
    (by with_unfolding_all decide) (by with_unfolding_all decide)).1⟩

/-- C8, counterexample.  In the concrete run the single iteration converges
(similarity 1 ≥ 0.8) and is also the last allowed iteration, yet the Loss
Analyzer is still invoked in it: the source awaits `_analyze_loss` in every
iteration before the convergence check, so a converged iteration does not go
directly to success without a loss-analysis call. -/
theorem pipeline_loss_called_when_converged_cex :
    (pipeline_compress cfgRun extRun "msg" gW).2 = [PipelineEvent.lossCall 1] ∧
      ((pipeline_compress cfgRun extRun "msg" gW).1.map (fun r => r.success)) = some true := by
  constructor <;> with_unfolding_all decide

/-- Whether an event is a Loss-Analyzer call. -/
def isLossCall : PipelineEvent → Bool
  | .lossCall _ => true
  | .boostCall _ => false

/-- Number of Loss-Analyzer calls recorded in a trace. -/
def countLossCalls (tr : List PipelineEvent) : Nat := (tr.filter isLossCall).length

/-- Loss-call counting distributes over trace concatenation. -/
theorem countLossCalls_append (a b : List PipelineEvent) :
    countLossCalls (a ++ b) = countLossCalls a + countLossCalls b := by
  simp [countLossCalls, List.filter_append]

/-- The loop only ever appends iteration records to its accumulator. -/
theorem runLoop_iterations_prefix (cfg : PipelineConfig) (ext : PipelineExternals)
    (message : String) (otk : Nat) :
    ∀ (fuel iteration : Nat) (graph : SemanticGraph) (t : ℚ)
      (acc : List IterationResult) (tr : List PipelineEvent) (res : PipelineResult),
      (runLoop cfg ext message otk fuel iteration graph t acc tr).1 = some res →
      ∃ suffix, res.iterations = acc ++ suffix := by
  intro fuel
  induction fuel with
  | zero =>
    intro it g t acc tr res hres
    cases hlast : acc.getLast? with
    | none => simp [runLoop, hlast] at hres
    | some last =>
      simp only [runLoop, hlast] at hres
      obtain rfl : _ = res := Option.some.inj hres
      exact ⟨[], (List.append_nil acc).symm⟩
  | succ fuel ih =>
    intro it g t acc tr res hres
    simp only [runLoop] at hres
    by_cases hsim : cfg.target_similarity ≤
        (runIteration ext message otk it g t).similarity_score
    · rw [if_pos hsim] at hres
      obtain rfl : _ = res := Option.some.inj hres
      exact ⟨[runIteration ext message otk it g t], rfl⟩
    · rw [if_neg hsim] at hres
      by_cases hit : it < cfg.max_iterations
      · rw [if_pos hit] at hres
        obtain ⟨suf, hsuf⟩ := ih _ _ _ _ _ res hres
        exact ⟨runIteration ext message otk it g t :: suf,
          by rw [hsuf, List.append_assoc]; rfl⟩
      · rw [if_neg hit] at hres
        obtain ⟨suf, hsuf⟩ := ih _ _ _ _ _ res hres
        exact ⟨runIteration ext message otk it g t :: suf,
          by rw [hsuf, List.append_assoc]; rfl⟩

/-- Trace invariant of the loop: every performed iteration records exactly
one Loss-Analyzer call (whether or not it converged), and a Booster call is
recorded only for an iteration that neither converged nor was the last
allowed one. -/
theorem runLoop_trace_spec (cfg : PipelineConfig) (ext : PipelineExternals)
    (message : String) (otk : Nat) :
    ∀ (fuel iteration : Nat) (graph : SemanticGraph) (t : ℚ)
      (acc : List IterationResult) (tr : List PipelineEvent)
      (res : PipelineResult) (tr2 : List PipelineEvent),
      runLoop cfg ext message otk fuel iteration graph t acc tr = (some res, tr2) →
      countLossCalls tr2 + acc.length = countLossCalls tr + res.iterations.length ∧
      ∀ i, PipelineEvent.boostCall i ∈ tr2 →
        PipelineEvent.boostCall i ∈ tr ∨
          ∃ x ∈ res.iterations, x.iteration = i ∧
            x.similarity_score < cfg.target_similarity ∧ i < cfg.max_iterations := by
  intro fuel
  induction fuel with
  | zero =>
    intro it g t acc tr res tr2 hres
    cases hlast : acc.getLast? with
    | none => simp [runLoop, hlast] at hres
    | some last =>
      simp only [runLoop, hlast, Prod.mk.injEq] at hres
      obtain ⟨h1, h2⟩ := hres
      obtain rfl : _ = res := Option.some.inj h1
      subst h2
      exact ⟨rfl, fun i hi => Or.inl hi⟩
  | succ fuel ih =>
    intro it g t acc tr res tr2 hres
    simp only [runLoop] at hres
    by_cases hsim : cfg.target_similarity ≤
        (runIteration ext message otk it g t).similarity_score
    · rw [if_pos hsim] at hres
      rw [Prod.mk.injEq] at hres
      obtain ⟨h1, h2⟩ := hres
      obtain rfl : _ = res := Option.some.inj h1
      subst h2
      constructor
      · rw [countLossCalls_append]
        simp [countLossCalls, isLossCall, List.length_append]
        omega
      · intro i hi
        rcases List.mem_append.mp hi with h | h
        · exact Or.inl h
        · cases List.mem_singleton.mp h
    · rw [if_neg hsim] at hres
      by_cases hit : it < cfg.max_iterations
      · rw [if_pos hit] at hres
        have hpre := runLoop_iterations_prefix cfg ext message otk fuel (it + 1) _ _ _ _ res
          (congrArg Prod.fst hres)
        obtain ⟨suf, hsuf⟩ := hpre
        obtain ⟨ihc, ihb⟩ := ih _ _ _ _ _ res tr2 hres
        constructor
        · rw [countLossCalls_append, countLossCalls_append] at ihc
          simp [countLossCalls, isLossCall, List.length_append] at ihc ⊢
          omega
        · intro i hi
          rcases ihb i hi with h | h
          · rcases List.mem_append.mp h with h' | h'
            · rcases List.mem_append.mp h' with h'' | h''
              · exact Or.inl h''
              · cases List.mem_singleton.mp h''
            · have hieq : i = it := by
                have := List.mem_singleton.mp h'
                cases this
                rfl
              subst hieq
              refine Or.inr ⟨runIteration ext message otk i g t, ?_, rfl,
                not_le.mp hsim, hit⟩
              rw [hsuf]
              exact List.mem_append_left _ (List.mem_append_right _ (List.mem_singleton.mpr rfl))
          · exact Or.inr h
      · rw [if_neg hit] at hres
        obtain ⟨ihc, ihb⟩ := ih _ _ _ _ _ res tr2 hres
        constructor
        · rw [countLossCalls_append] at ihc
          simp [countLossCalls, isLossCall, List.length_append] at ihc ⊢
          omega
        · intro i hi
          rcases ihb i hi with h | h
          · rcases List.mem_append.mp h with h' | h'
            · exact Or.inl h'
            · cases List.mem_singleton.mp h'
          · exact Or.inr h

/-- C8, amended.  The Loss Analyzer is invoked exactly once in every
performed iteration — before the convergence check, so converged and final
iterations are analyzed too; it is the Importance Booster (with the
conditional entropy-target relaxation) that runs only in an iteration that
neither converged nor was the last allowed one. -/
theorem pipeline_loss_every_iteration (cfg : PipelineConfig) (ext : PipelineExternals)
    (message : String) (graph : SemanticGraph) (res : PipelineResult)
    (tr : List PipelineEvent)
    (hrun : pipeline_compress cfg ext message graph = (some res, tr)) :
    countLossCalls tr = res.iterations.length ∧
      ∀ i, PipelineEvent.boostCall i ∈ tr →
        ∃ x ∈ res.iterations, x.iteration = i ∧
          x.similarity_score < cfg.target_similarity ∧ i < cfg.max_iterations := by
  obtain ⟨h1, h2⟩ := runLoop_trace_spec cfg ext message (ext.count_tokens message)
    cfg.max_iterations 1 graph _ [] [] res tr hrun
  constructor
  · simpa [countLossCalls] using h1
  · intro i hi
    rcases h2 i hi with h | h
    · cases h
    · exact h

/-- The trace of the concrete run. -/
def trRun : List PipelineEvent := (pipeline_compress cfgRun extRun "msg" gW).2

/-- Witness for `pipeline_loss_every_iteration`: in the concrete one-shot run
there is exactly one loss call for exactly one iteration. -/
theorem pipeline_loss_every_iteration_witness :
    pipeline_compress cfgRun extRun "msg" gW = (some resRun, trRun) ∧
      countLossCalls trRun = resRun.iterations.length := by
  have h0 : pipeline_compress cfgRun extRun "msg" gW = (some resRun, trRun) := by
    with_unfolding_all rfl
  exact ⟨h0, (pipeline_loss_every_iteration cfgRun extRun "msg" gW resRun trRun h0).1⟩

end MS
